import Mathlib

/-!
Verification model of the inkBoard package indexer
(src/inkBoard_indexer.py).  The per-component reconciliation logic of
create_integration_index and create_platform_index (version comparison,
plan decision, archiving or deletion of old artifacts, package creation,
error aggregation in main) is embedded as executable Lean definitions,
and the specified properties are settled against them.
-/

set_option autoImplicit false

namespace Indexer

/-- Modelled from the spec: the version type of
inkBoard.packaging.version.parse_version, which the script imports and
which is not part of this repository.  Spec section 3: an ordered
(major, minor, patch) triple plus an optional pre-release tag; a
pre-release version is strictly below the release version with the same
triple; equality needs an identical triple and identical tag.  A tag is
a pair (phase, number) with phases ordered (a < b < ...). -/
structure Version where
  major : Nat
  minor : Nat
  patch : Nat
  pre : Option (Nat × Nat)
deriving DecidableEq, Repr

/-- The version parse_version("0.0.0") used as the default for an absent
branch record (source lines 247, 250). -/
def v000 : Version := ⟨0, 0, 0, none⟩

/-- Modelled from the spec: the is_prerelease predicate of the external
version type (a version is a pre-release iff it carries a tag). -/
def Version.isPrerelease (v : Version) : Bool := v.pre.isSome

/-- Rank of the pre-release part for ordering: a release (no tag) ranks
above every tagged pre-release of the same triple. -/
def preRank : Option (Nat × Nat) → Nat × Nat × Nat
  | none => (1, 0, 0)
  | some (k, n) => (0, k, n)

/-- Modelled from the spec: the strict order on versions, lexicographic
on (major, minor, patch), with a pre-release strictly below the matching
release and pre-release tags compared lexicographically. -/
def Version.ltb (a b : Version) : Bool :=
  if a.major ≠ b.major then decide (a.major < b.major)
  else if a.minor ≠ b.minor then decide (a.minor < b.minor)
  else if a.patch ≠ b.patch then decide (a.patch < b.patch)
  else if (preRank a.pre).1 ≠ (preRank b.pre).1 then
    decide ((preRank a.pre).1 < (preRank b.pre).1)
  else if (preRank a.pre).2.1 ≠ (preRank b.pre).2.1 then
    decide ((preRank a.pre).2.1 < (preRank b.pre).2.1)
  else decide ((preRank a.pre).2.2 < (preRank b.pre).2.2)

/-- Rendering of a pre-release tag, phase 0 printed as an alpha tag,
phase 1 as a beta tag, anything further as a dev tag. -/
def preTagStr : Nat × Nat → String
  | (0, n) => "a" ++ toString n
  | (1, n) => "b" ++ toString n
  | (_, n) => "dev" ++ toString n

/-- Modelled from the spec: the canonical string of a version, as
produced by the f-strings of the source (e.g. "2.0.0a1"). -/
def Version.render (v : Version) : String :=
  toString v.major ++ "." ++ toString v.minor ++ "." ++ toString v.patch ++
    (match v.pre with
     | none => ""
     | some t => preTagStr t)

/-! ## Paths (source lines 38-55 and the per-component path f-strings)

Paths are modelled as lists of segments. -/

/-- INDEX_FOLDER (line 38): the folder holding the index, the parent of
the script file; modelled as an abstract root segment. -/
def INDEX_FOLDER : List String := ["index"]

/-- INTEGRATION_INDEX_FOLDER (line 47). -/
def INTEGRATION_INDEX_FOLDER : List String := INDEX_FOLDER ++ ["integrations"]

/-- PLATFORM_INDEX_FOLDER (line 48). -/
def PLATFORM_INDEX_FOLDER : List String := INDEX_FOLDER ++ ["platforms"]

/-- ARCHIVE_FOLDER_STR (line 49). -/
def ARCHIVE_FOLDER_STR : String := "versions"

/-- The artifact file name f-strings of the source (lines 277, 279, 283,
284, 291, 292): name-version.zip, with a _dev suffix in dev mode. -/
def packageFileName (name : String) (v : Version) (dev : Bool) : String :=
  if dev then name ++ "-" ++ v.render ++ "_dev.zip"
  else name ++ "-" ++ v.render ++ ".zip"

/-- The archive destination file name f-string (lines 287, 294): always
name-version.zip, never carrying the _dev suffix. -/
def archiveFileName (name : String) (v : Version) : String :=
  name ++ "-" ++ v.render ++ ".zip"

/-- index_folder of an integration (line 240). -/
def integrationIndexFolder (name : String) : List String :=
  INTEGRATION_INDEX_FOLDER ++ [name]

/-- index_folder of a platform (line 348): the source resolves it under
INTEGRATION_INDEX_FOLDER. -/
def platformIndexFolder (name : String) : List String :=
  INTEGRATION_INDEX_FOLDER ++ [name]

/-- package_name of an integration (lines 277, 279, 283, 291). -/
def integrationPackagePath (name : String) (v : Version) (dev : Bool) : List String :=
  integrationIndexFolder name ++ [packageFileName name v dev]

/-- package_name of a platform (lines 385, 387, 391, 399). -/
def platformPackagePath (name : String) (v : Version) (dev : Bool) : List String :=
  platformIndexFolder name ++ [packageFileName name v dev]

/-- old_package of an integration (lines 284, 292). -/
def integrationOldPackagePath (name : String) (iv : Version) (dev : Bool) : List String :=
  integrationIndexFolder name ++ [packageFileName name iv dev]

/-- old_package of a platform (lines 392, 400). -/
def platformOldPackagePath (name : String) (iv : Version) (dev : Bool) : List String :=
  platformIndexFolder name ++ [packageFileName name iv dev]

/-- archive_package of an integration (lines 287, 294). -/
def integrationArchivePath (name : String) (iv : Version) : List String :=
  integrationIndexFolder name ++ [ARCHIVE_FOLDER_STR, archiveFileName name iv]

/-- archive_package of a platform (lines 395, 402). -/
def platformArchivePath (name : String) (iv : Version) : List String :=
  platformIndexFolder name ++ [ARCHIVE_FOLDER_STR, archiveFileName name iv]

/-! ## The index store -/

/-- One component's index entry: a mapping from branch ("main" / "dev")
to the recorded version.  The source stores version strings
(d["version"]) and parses them on access; versions are stored parsed
here, relying on the lossless round-trip of save/load. -/
structure Entry where
  main : Option Version
  dev : Option Version
deriving DecidableEq, Repr

/-- Branch lookup inside an entry; the branch is the dev flag
(branch = "dev" iff dev_mode, source lines 236, 344). -/
def Entry.get (e : Entry) (dev : Bool) : Option Version :=
  if dev then e.dev else e.main

/-- Writing one branch of an entry
(integration_index[name][branch] = version, line 248). -/
def Entry.set (e : Entry) (dev : Bool) (v : Version) : Entry :=
  if dev then { e with dev := some v } else { e with main := some v }

/-- A fresh entry {branch: version} (line 251). -/
def Entry.single (dev : Bool) (v : Version) : Entry :=
  Entry.set ⟨none, none⟩ dev v

/-- The in-memory component index: an insertion-ordered mapping from
component name to entry, as a Python dict holds it. -/
abbrev IndexMap := List (String × Entry)

/-- Dict lookup (p.name in integration_index / integration_index[p.name]). -/
def lookupEntry : IndexMap → String → Option Entry
  | [], _ => none
  | (k, e) :: t, n => if k = n then some e else lookupEntry t n

/-- Dict write: replace the entry in place when the key exists, append
it otherwise (Python dict assignment). -/
def setEntry : IndexMap → String → Entry → IndexMap
  | [], n, e => [(n, e)]
  | (k, e0) :: t, n, e =>
      if k = n then (k, e) :: t else (k, e0) :: setEntry t n e

/-- The recorded version of a branch with the "0.0.0" default applied
(integration_index[p.name].get(branch, "0.0.0"), lines 246-250). -/
def recordedD (idx : IndexMap) (name : String) (dev : Bool) : Version :=
  match lookupEntry idx name with
  | some e => (e.get dev).getD v000
  | none => v000

/-! ## Filesystem model

Each component owns one primary folder under the integrations index
folder; zip files in it are identified by the (name, version, dev)
triple of the artifact naming convention, or are unrelated zips.  The
versions/ sub-store is a list of archived file names. -/

/-- A zip file in a component's primary folder. -/
inductive Zip where
  | artifact (name : String) (v : Version) (dev : Bool)
  | junk (n : Nat)
deriving DecidableEq, Repr

/-- A component's primary folder: its zip files and the contents of its
versions/ archive sub-folder (as archive file names). -/
structure Folder where
  zips : List Zip
  archive : List String
deriving DecidableEq, Repr

/-- The per-component errors collected into err_dict: missingManifest
and archiveCollision and ambiguousState are raised as FileIndexError in
the source (lines 233, 302, 316), versionRegressed and prereleaseOnMain
as VersionError (lines 261, 267). -/
inductive CompError where
  | missingManifest
  | versionRegressed
  | prereleaseOnMain
  | archiveCollision
  | ambiguousState
deriving DecidableEq, Repr

/-- The plan decided by the version comparison chain (lines 253-268). -/
inductive Plan where
  | skip
  | reject (e : CompError)
  | publish
deriving DecidableEq, Repr

/-- A component descriptor: its folder name, whether a manifest file
exists, and the declared version parsed from it. -/
structure Component where
  name : String
  hasManifest : Bool
  version : Version
deriving DecidableEq, Repr

/-- Filesystem write effects performed by one pass. -/
inductive Effect where
  | mkdirFolder (name : String)
  | archiveMove (name : String) (v : Version)
  | removeOld (name : String) (v : Version) (dev : Bool)
  | buildZip (name : String) (v : Version) (dev : Bool)
deriving DecidableEq, Repr

/-! ## The reconciliation step (create_integration_index, lines 229-320) -/

/-- Lines 245-268: read the recorded version (defaulting to 0.0.0),
write the declared version into the in-memory entry, and decide the
plan by the if/elif chain, first match winning.  Returns the mutated
index, the recorded version that was read, and the plan. -/
def reconcile (devMode : Bool) (idx : IndexMap) (name : String)
    (declared : Version) : IndexMap × Version × Plan :=
  let indexVersion :=
    match lookupEntry idx name with
    | some e => (e.get devMode).getD v000
    | none => v000
  let idx' :=
    match lookupEntry idx name with
    | some e => setEntry idx name (e.set devMode declared)
    | none => setEntry idx name (Entry.single devMode declared)
  let plan :=
    if indexVersion = declared then Plan.skip
    else if Version.ltb declared indexVersion then Plan.reject .versionRegressed
    else if !devMode && declared.isPrerelease then Plan.reject .prereleaseOnMain
    else Plan.publish
  (idx', indexVersion, plan)

/-- The publish set-up of lines 270-295: old_package and
archive_old_package as decided before the disposal code runs.  The
folder field is the folder after the mkdir of lines 272-273 when the
primary folder did not exist. -/
structure PubSetup where
  folder : Folder
  preEff : List Effect
  old : Option Zip
  archiveOld : Bool
deriving Repr

/-- Lines 270-295: when the primary folder is absent it is created
(with its versions/ sub-folder) and no old package is considered; in
dev mode the old package is the recorded dev artifact and it is
archived only when it exists and the recorded version is a pre-release;
otherwise (main) the old package is the recorded artifact and it is
archived whenever it exists. -/
def pubSetup (devMode : Bool) (name : String) (indexVersion : Version)
    (fs : Option Folder) : PubSetup :=
  match fs with
  | none => ⟨⟨[], []⟩, [Effect.mkdirFolder name], none, false⟩
  | some f =>
      if devMode then
        let old := Zip.artifact name indexVersion true
        ⟨f, [], some old, decide (old ∈ f.zips) && indexVersion.isPrerelease⟩
      else
        let old := Zip.artifact name indexVersion false
        ⟨f, [], some old, decide (old ∈ f.zips)⟩

/-- Lines 297-320: execute a Publish plan.  Archive the old package
unless the archive destination already exists (then record the error
and stop, the continue of line 303); otherwise delete the old package
when it exists; then refuse to build when more than one zip remains in
the primary folder (lines 312-317); finally build the new package. -/
def executePublish (devMode : Bool) (name : String) (declared indexVersion : Version)
    (fs : Option Folder) : Option Folder × List Effect × Option CompError :=
  let s := pubSetup devMode name indexVersion fs
  let afterDispose : Folder × List Effect × Option CompError :=
    if s.archiveOld then
      let dst := archiveFileName name indexVersion
      if dst ∈ s.folder.archive then (s.folder, s.preEff, some .archiveCollision)
      else
        match s.old with
        | some old =>
            (⟨s.folder.zips.erase old, s.folder.archive ++ [dst]⟩,
             s.preEff ++ [Effect.archiveMove name indexVersion], none)
        | none => (s.folder, s.preEff, none)
    else
      match s.old with
      | some old =>
          if old ∈ s.folder.zips then
            (⟨s.folder.zips.erase old, s.folder.archive⟩,
             s.preEff ++ [Effect.removeOld name indexVersion devMode], none)
          else (s.folder, s.preEff, none)
      | none => (s.folder, s.preEff, none)
  match afterDispose with
  | (f, eff, some e) => (some f, eff, some e)
  | (f, eff, none) =>
      if f.zips.length > 1 then (some f, eff, some .ambiguousState)
      else
        (some ⟨f.zips ++ [Zip.artifact name declared devMode], f.archive⟩,
         eff ++ [Effect.buildZip name declared devMode], none)

/-- The result of processing one component. -/
structure StepResult where
  idx : IndexMap
  fs : Option Folder
  effects : List Effect
  error : Option CompError
deriving Repr

/-- One loop iteration of create_integration_index (lines 229-320): a
missing manifest is recorded and the component skipped before any index
mutation; otherwise the index entry is written and the plan decided by
reconcile, and a Publish plan is executed against the folder. -/
def stepComponent (devMode : Bool) (idx : IndexMap) (c : Component)
    (fs : Option Folder) : StepResult :=
  if c.hasManifest then
    match reconcile devMode idx c.name c.version with
    | (idx', _, Plan.skip) => ⟨idx', fs, [], none⟩
    | (idx', _, Plan.reject e) => ⟨idx', fs, [], some e⟩
    | (idx', iv, Plan.publish) =>
        let r := executePublish devMode c.name c.version iv fs
        ⟨idx', r.1, r.2.1, r.2.2⟩
  else ⟨idx, fs, [], some .missingManifest⟩

/-- The result of one reconciliation pass. -/
structure PassResult where
  idx : IndexMap
  states : List (String × Option Folder)
  effects : List Effect
  errs : List (String × CompError)
deriving Repr

/-- The component loop of create_integration_index: components are
processed in order, each against its own primary folder; errors are
collected into err_dict and never stop the loop. -/
def runPass (devMode : Bool) (idx : IndexMap) :
    List (Component × Option Folder) → PassResult
  | [] => ⟨idx, [], [], []⟩
  | (c, fs) :: rest =>
      let r := stepComponent devMode idx c fs
      let tail := runPass devMode r.idx rest
      ⟨tail.idx, (c.name, r.fs) :: tail.states, r.effects ++ tail.effects,
       (match r.error with
        | some e => [(c.name, e)]
        | none => []) ++ tail.errs⟩

/-- The outcome of main (lines 559-600): the integrations pass raising
(err_dict non-empty, line 328) aborts main before the platforms pass
runs and before the index file is dumped; a raising platforms pass also
aborts before the dump; otherwise the updated index is written. -/
inductive MainOutcome where
  | raisedIntegrations
  | raisedPlatforms
  | wroteIndex (integrations platforms : IndexMap)
deriving DecidableEq, Repr

/-- main (lines 559-600): run the integrations pass, then the platforms
pass, then dump the index file; a raise in either pass propagates and
the dump of line 598 is never reached. -/
def runMain (devMode : Bool) (idxInt idxPlat : IndexMap)
    (ints plats : List (Component × Option Folder)) : MainOutcome :=
  let r1 := runPass devMode idxInt ints
  if r1.errs = [] then
    let r2 := runPass devMode idxPlat plats
    if r2.errs = [] then .wroteIndex r1.idx r2.idx
    else .raisedPlatforms
  else .raisedIntegrations

/-! ## Index file loading (lines 57-68) -/

/-- The version stamps of the three external packages, read from the
imported modules; kept abstract. -/
structure ToolVersions where
  inkBoard : String
  pssm : String
  designer : String

/-- The persisted index file structure. -/
structure IndexFile where
  stamps : ToolVersions
  timestamp : String
  platforms : IndexMap
  integrations : IndexMap

/-- dt.fromtimestamp(0).isoformat() (line 65). -/
def epochTimestamp : String := "1970-01-01T00:00:00"

/-- Recorded version 1.0.0, the seed value of the default index. -/
def v100 : Version := ⟨1, 0, 0, none⟩

/-- Lines 57-68: load the index file, or build the default structure
when the file is absent.  The default carries the three tool-version
stamps, the epoch timestamp, an empty platforms mapping, and an
integrations mapping seeded with the entry api -> {main: "1.0.0"}. -/
def loadIndex (tools : ToolVersions) (file : Option IndexFile) : IndexFile :=
  match file with
  | some f => f
  | none =>
      ⟨tools, epochTimestamp, [],
       [("api", Entry.single false v100)]⟩

/-! ## Derived notions used by the properties -/

/-- The recorded branch version of a component without the 0.0.0
default: none when the entry or the branch record is absent. -/
def recordedOpt (idx : IndexMap) (name : String) (dev : Bool) : Option Version :=
  (lookupEntry idx name).bind (fun e => e.get dev)

/-- Whether a zip file matches the current-artifact naming pattern of a
component and branch: an artifact of that name whose dev suffix matches
the branch. -/
def isCurrent (name : String) (dev : Bool) : Zip → Bool
  | .artifact n _ d => (n == name) && (d == dev)
  | .junk _ => false

/-- The number of files in a folder matching the current-artifact
pattern of the given component and branch. -/
def currentCount (f : Folder) (name : String) (dev : Bool) : Nat :=
  (f.zips.filter (isCurrent name dev)).length

/-- currentCount lifted to a possibly absent folder. -/
def currentCountO : Option Folder → String → Bool → Nat
  | none, _, _ => 0
  | some f, name, dev => currentCount f name dev

/-- A component folder is consistent with the index when its zip files
are distinct and every one of them is the artifact named by the
component name and the recorded version of one of the two branches
(with the 0.0.0 default for an absent record). -/
def consistentFolder (idx : IndexMap) (name : String) : Option Folder → Prop
  | none => True
  | some f => f.zips.Nodup ∧
      ∀ z ∈ f.zips, ∃ d : Bool, z = Zip.artifact name (recordedD idx name d) d

/-- The component names of a pass input, in order. -/
def passNames (comps : List (Component × Option Folder)) : List String :=
  comps.map (fun p => p.1.name)

/-- The input of a second pass over the same components: each component
paired with the folder state the first pass left for it. -/
def rerunPairs (comps : List (Component × Option Folder)) (r : PassResult) :
    List (Component × Option Folder) :=
  (comps.map Prod.fst).zip (r.states.map Prod.snd)

/-! ## Basic lemmas about the index map and entries -/

theorem lookupEntry_setEntry_self (idx : IndexMap) (n : String) (e : Entry) :
    lookupEntry (setEntry idx n e) n = some e := by
  induction idx with
  | nil => simp [setEntry, lookupEntry]
  | cons p t ih =>
      obtain ⟨k, e0⟩ := p
      by_cases h : k = n
      · simp [setEntry, lookupEntry, h]
      · simp [setEntry, lookupEntry, h, ih]

theorem lookupEntry_setEntry_ne (idx : IndexMap) (n m : String) (e : Entry)
    (h : m ≠ n) : lookupEntry (setEntry idx n e) m = lookupEntry idx m := by
  induction idx with
  | nil => simp [setEntry, lookupEntry, Ne.symm h]
  | cons p t ih =>
      obtain ⟨k, e0⟩ := p
      by_cases hk : k = n
      · subst hk
        simp [setEntry, lookupEntry, Ne.symm h]
      · by_cases hm : k = m
        · subst hm
          simp [setEntry, lookupEntry, hk]
        · simp [setEntry, lookupEntry, hk, hm, ih]

theorem setEntry_eq_of_lookup (idx : IndexMap) (n : String) (e : Entry)
    (h : lookupEntry idx n = some e) : setEntry idx n e = idx := by
  induction idx with
  | nil => simp [lookupEntry] at h
  | cons p t ih =>
      obtain ⟨k, e0⟩ := p
      by_cases hk : k = n
      · simp [lookupEntry, hk] at h
        simp [setEntry, hk, h]
      · simp [lookupEntry, hk] at h
        simp [setEntry, hk, ih h]

theorem Entry.get_set_self (e : Entry) (b : Bool) (v : Version) :
    (e.set b v).get b = some v := by
  cases b <;> simp [Entry.get, Entry.set]

theorem Entry.set_eq_of_get (e : Entry) (b : Bool) (v : Version)
    (h : e.get b = some v) : e.set b v = e := by
  obtain ⟨m, d⟩ := e
  cases b <;> simp_all [Entry.get, Entry.set]

/-! ## Counting lemmas for the current-artifact pattern -/

theorem length_le_one_of_forall_eq {α : Type} {l : List α} {a : α}
    (hnd : l.Nodup) (h : ∀ x ∈ l, x = a) : l.length ≤ 1 := by
  match l, hnd, h with
  | [], _, _ => simp
  | [x], _, _ => simp
  | x :: y :: t, hnd, h =>
      exfalso
      have hxy : x = y := by
        rw [h x (by simp), h y (by simp)]
      rw [List.nodup_cons] at hnd
      exact hnd.1 (hxy ▸ List.mem_cons_self y t)

theorem filter_length_le_one {l : List Zip} {p : Zip → Bool} {a : Zip}
    (hnd : l.Nodup) (h : ∀ z ∈ l, p z = true → z = a) :
    (l.filter p).length ≤ 1 :=
  length_le_one_of_forall_eq (hnd.filter p)
    (fun z hz => h z (List.mem_of_mem_filter hz) (List.of_mem_filter hz))

theorem reconcile_recorded (dm : Bool) (idx : IndexMap) (n : String) (v : Version) :
    (reconcile dm idx n v).2.1 = recordedD idx n dm := by
  simp only [reconcile, recordedD]

theorem reconcile_recordedOpt_self (dm : Bool) (idx : IndexMap) (n : String)
    (v : Version) : recordedOpt (reconcile dm idx n v).1 n dm = some v := by
  simp only [reconcile, recordedOpt]
  cases h : lookupEntry idx n with
  | none => simp [lookupEntry_setEntry_self, Entry.single, Entry.get_set_self]
  | some e => simp [lookupEntry_setEntry_self, Entry.get_set_self]

theorem reconcile_lookup_ne (dm : Bool) (idx : IndexMap) (n : String) (v : Version)
    (m : String) (h : m ≠ n) :
    lookupEntry (reconcile dm idx n v).1 m = lookupEntry idx m := by
  simp only [reconcile]
  cases lookupEntry idx n <;> simp [lookupEntry_setEntry_ne _ _ _ _ h]

theorem reconcile_of_recorded_eq (dm : Bool) (idx : IndexMap) (n : String)
    (v : Version) (e : Entry) (hl : lookupEntry idx n = some e)
    (hg : e.get dm = some v) : reconcile dm idx n v = (idx, v, Plan.skip) := by
  simp only [reconcile, hl]
  rw [Entry.set_eq_of_get e dm v hg, setEntry_eq_of_lookup idx n e hl]
  simp [hg]

theorem stepComponent_lookup_ne (dm : Bool) (idx : IndexMap) (c : Component)
    (fs : Option Folder) (m : String) (h : m ≠ c.name) :
    lookupEntry (stepComponent dm idx c fs).idx m = lookupEntry idx m := by
  rcases hr : reconcile dm idx c.name c.version with ⟨idx', iv, plan⟩
  have hl : lookupEntry idx' m = lookupEntry idx m := by
    have h2 := reconcile_lookup_ne dm idx c.name c.version m h
    rw [hr] at h2
    exact h2
  by_cases hm : c.hasManifest = true
  · cases plan <;> simp [stepComponent, hm, hr, hl]
  · simp [stepComponent, hm]

theorem stepComponent_recordedOpt_self (dm : Bool) (idx : IndexMap) (c : Component)
    (fs : Option Folder) (hm : c.hasManifest = true) :
    recordedOpt (stepComponent dm idx c fs).idx c.name dm = some c.version := by
  rcases hr : reconcile dm idx c.name c.version with ⟨idx', iv, plan⟩
  have hl : recordedOpt idx' c.name dm = some c.version := by
    have h2 := reconcile_recordedOpt_self dm idx c.name c.version
    rw [hr] at h2
    exact h2
  cases plan <;> simp [stepComponent, hm, hr, hl]

theorem reconcile_congr (dm : Bool) (idx1 idx2 : IndexMap) (n : String)
    (v : Version) (hc : lookupEntry idx1 n = lookupEntry idx2 n) :
    (reconcile dm idx1 n v).2 = (reconcile dm idx2 n v).2 ∧
      lookupEntry (reconcile dm idx1 n v).1 n =
        lookupEntry (reconcile dm idx2 n v).1 n := by
  simp only [reconcile, hc]
  cases lookupEntry idx2 n <;> simp [lookupEntry_setEntry_self]

theorem stepComponent_congr (dm : Bool) (idx1 idx2 : IndexMap) (c : Component)
    (fs : Option Folder) (hc : lookupEntry idx1 c.name = lookupEntry idx2 c.name) :
    (stepComponent dm idx1 c fs).fs = (stepComponent dm idx2 c fs).fs ∧
    (stepComponent dm idx1 c fs).effects = (stepComponent dm idx2 c fs).effects ∧
    (stepComponent dm idx1 c fs).error = (stepComponent dm idx2 c fs).error ∧
    lookupEntry (stepComponent dm idx1 c fs).idx c.name =
      lookupEntry (stepComponent dm idx2 c fs).idx c.name := by
  by_cases hm : c.hasManifest = true
  · rcases hr1 : reconcile dm idx1 c.name c.version with ⟨i1, v1, p1⟩
    rcases hr2 : reconcile dm idx2 c.name c.version with ⟨i2, v2, p2⟩
    have hcg := reconcile_congr dm idx1 idx2 c.name c.version hc
    rw [hr1, hr2] at hcg
    obtain ⟨h2, hl⟩ := hcg
    obtain ⟨hv, hp⟩ := Prod.mk.injEq .. ▸ h2
    subst hv
    subst hp
    cases p1 <;> simp [stepComponent, hm, hr1, hr2, hl]
  · simp [stepComponent, hm, hc]

theorem recordedOpt_congr {idx1 idx2 : IndexMap} {n : String}
    (h : lookupEntry idx1 n = lookupEntry idx2 n) (dev : Bool) :
    recordedOpt idx1 n dev = recordedOpt idx2 n dev := by
  simp [recordedOpt, h]

theorem recordedD_congr {idx1 idx2 : IndexMap} {n : String}
    (h : lookupEntry idx1 n = lookupEntry idx2 n) (dev : Bool) :
    recordedD idx1 n dev = recordedD idx2 n dev := by
  simp [recordedD, h]

theorem passNames_cons (c : Component) (fs : Option Folder)
    (rest : List (Component × Option Folder)) :
    passNames ((c, fs) :: rest) = c.name :: passNames rest := rfl

theorem runPass_lookup_not_mem (dm : Bool) :
    ∀ (comps : List (Component × Option Folder)) (idx : IndexMap) (m : String),
    m ∉ passNames comps →
    lookupEntry (runPass dm idx comps).idx m = lookupEntry idx m := by
  intro comps
  induction comps with
  | nil => intro idx m _; rfl
  | cons p rest ih =>
      obtain ⟨c, fs⟩ := p
      intro idx m hm
      rw [passNames_cons, List.mem_cons] at hm
      push_neg at hm
      show lookupEntry (runPass dm (stepComponent dm idx c fs).idx rest).idx m =
        lookupEntry idx m
      rw [ih _ m hm.2]
      exact stepComponent_lookup_ne dm idx c fs m hm.1

theorem runPass_congr (dm : Bool) :
    ∀ (comps : List (Component × Option Folder)) (idx1 idx2 : IndexMap),
    (∀ m ∈ passNames comps, lookupEntry idx1 m = lookupEntry idx2 m) →
    (runPass dm idx1 comps).states = (runPass dm idx2 comps).states ∧
    (runPass dm idx1 comps).effects = (runPass dm idx2 comps).effects ∧
    (runPass dm idx1 comps).errs = (runPass dm idx2 comps).errs ∧
    ∀ m ∈ passNames comps,
      lookupEntry (runPass dm idx1 comps).idx m =
        lookupEntry (runPass dm idx2 comps).idx m := by
  intro comps
  induction comps with
  | nil => intro idx1 idx2 _; exact ⟨rfl, rfl, rfl, by intro m hm; simp [passNames] at hm⟩
  | cons p rest ih =>
      obtain ⟨c, fs⟩ := p
      intro idx1 idx2 h
      have hcn : lookupEntry idx1 c.name = lookupEntry idx2 c.name :=
        h c.name (by rw [passNames_cons]; exact List.mem_cons_self _ _)
      obtain ⟨sfs, seff, serr, slook⟩ := stepComponent_congr dm idx1 idx2 c fs hcn
      have hrest : ∀ m ∈ passNames rest,
          lookupEntry (stepComponent dm idx1 c fs).idx m =
            lookupEntry (stepComponent dm idx2 c fs).idx m := by
        intro m hm
        by_cases hmc : m = c.name
        · subst hmc; exact slook
        · rw [stepComponent_lookup_ne dm idx1 c fs m hmc,
            stepComponent_lookup_ne dm idx2 c fs m hmc]
          exact h m (by rw [passNames_cons]; exact List.mem_cons_of_mem _ hm)
      obtain ⟨ts, te, tr, tl⟩ := ih (stepComponent dm idx1 c fs).idx
        (stepComponent dm idx2 c fs).idx hrest
      refine ⟨?_, ?_, ?_, ?_⟩
      · show (c.name, (stepComponent dm idx1 c fs).fs) ::
            (runPass dm (stepComponent dm idx1 c fs).idx rest).states = _
        rw [sfs, ts]
        rfl
      · show (stepComponent dm idx1 c fs).effects ++
            (runPass dm (stepComponent dm idx1 c fs).idx rest).effects = _
        rw [seff, te]
        rfl
      · show (match (stepComponent dm idx1 c fs).error with
            | some e => [(c.name, e)]
            | none => []) ++ (runPass dm (stepComponent dm idx1 c fs).idx rest).errs = _
        rw [serr, tr]
        rfl
      · intro m hm
        show lookupEntry (runPass dm (stepComponent dm idx1 c fs).idx rest).idx m =
          lookupEntry (runPass dm (stepComponent dm idx2 c fs).idx rest).idx m
        by_cases hmr : m ∈ passNames rest
        · exact tl m hmr
        · rw [runPass_lookup_not_mem dm rest _ m hmr,
            runPass_lookup_not_mem dm rest _ m hmr]
          rw [passNames_cons, List.mem_cons] at hm
          rcases hm with hm | hm
          · subst hm; exact slook
          · exact absurd hm hmr

theorem runPass_recordedOpt (dm : Bool) :
    ∀ (comps : List (Component × Option Folder)) (idx : IndexMap),
    (passNames comps).Nodup →
    ∀ p ∈ comps, p.1.hasManifest = true →
    recordedOpt (runPass dm idx comps).idx p.1.name dm = some p.1.version := by
  intro comps
  induction comps with
  | nil => intro idx _ p hp; simp at hp
  | cons q rest ih =>
      obtain ⟨c, fs⟩ := q
      intro idx hnd p hp hm
      rw [passNames_cons, List.nodup_cons] at hnd
      rcases List.mem_cons.mp hp with hp | hp
      · subst hp
        show recordedOpt (runPass dm (stepComponent dm idx c fs).idx rest).idx
          c.name dm = some c.version
        rw [recordedOpt_congr
          (runPass_lookup_not_mem dm rest _ c.name hnd.1) dm]
        exact stepComponent_recordedOpt_self dm idx c fs hm
      · exact ih _ hnd.2 p hp hm

theorem runPass_of_recorded (dm : Bool) :
    ∀ (comps : List (Component × Option Folder)) (idx : IndexMap),
    (∀ p ∈ comps, p.1.hasManifest = true →
      recordedOpt idx p.1.name dm = some p.1.version) →
    (runPass dm idx comps).idx = idx ∧ (runPass dm idx comps).effects = [] := by
  intro comps
  induction comps with
  | nil => intro idx _; exact ⟨rfl, rfl⟩
  | cons q rest ih =>
      obtain ⟨c, fs⟩ := q
      intro idx h
      by_cases hm : c.hasManifest = true
      · have hro := h (c, fs) (List.mem_cons_self _ _) hm
        rw [recordedOpt] at hro
        rcases hl : lookupEntry idx c.name with _ | e
        · rw [hl] at hro; simp at hro
        · rw [hl] at hro
          simp only [Option.bind_some] at hro
          have hst : stepComponent dm idx c fs = ⟨idx, fs, [], none⟩ := by
            simp [stepComponent, hm, reconcile_of_recorded_eq dm idx c.name c.version e hl hro]
          obtain ⟨hidx, heff⟩ := ih idx (fun p hp => h p (List.mem_cons_of_mem _ hp))
          constructor
          · show (runPass dm (stepComponent dm idx c fs).idx rest).idx = idx
            rw [hst]
            exact hidx
          · show (stepComponent dm idx c fs).effects ++
              (runPass dm (stepComponent dm idx c fs).idx rest).effects = []
            rw [hst]
            simpa using heff
      · have hst : stepComponent dm idx c fs = ⟨idx, fs, [], some .missingManifest⟩ := by
          simp [stepComponent, hm]
        obtain ⟨hidx, heff⟩ := ih idx (fun p hp => h p (List.mem_cons_of_mem _ hp))
        constructor
        · show (runPass dm (stepComponent dm idx c fs).idx rest).idx = idx
          rw [hst]
          exact hidx
        · show (stepComponent dm idx c fs).effects ++
            (runPass dm (stepComponent dm idx c fs).idx rest).effects = []
          rw [hst]
          simpa using heff

theorem isCurrent_eq_true_iff (name : String) (dev : Bool) (z : Zip) :
    isCurrent name dev z = true ↔ ∃ v, z = Zip.artifact name v dev := by
  cases z with
  | artifact n v d =>
      simp only [isCurrent, Bool.and_eq_true, beq_iff_eq]
      constructor
      · rintro ⟨rfl, rfl⟩; exact ⟨v, rfl⟩
      · rintro ⟨w, hw⟩
        cases hw
        exact ⟨rfl, rfl⟩
  | junk n => simp [isCurrent]

theorem executePublish_success_shape (dm : Bool) (name : String)
    (declared iv : Version) (fs : Option Folder)
    (h : (executePublish dm name declared iv fs).2.2 = none) :
    (fs = none ∧ (executePublish dm name declared iv fs).1 =
        some ⟨[Zip.artifact name declared dm], []⟩) ∨
    (∃ f ar, fs = some f ∧
      (executePublish dm name declared iv fs).1 =
        some ⟨f.zips.erase (Zip.artifact name iv dm) ++ [Zip.artifact name declared dm],
          ar⟩) := by
  cases fs with
  | none =>
      left
      exact ⟨rfl, by simp [executePublish, pubSetup]⟩
  | some f =>
      right
      cases dm with
      | false =>
          by_cases hmem : Zip.artifact name iv false ∈ f.zips
          · by_cases hdst : archiveFileName name iv ∈ f.archive
            · simp [executePublish, pubSetup, hmem, hdst] at h
            · by_cases hlen : 1 < f.zips.length - 1
              · simp [executePublish, pubSetup, hmem, hdst, hlen] at h
              · refine ⟨f, f.archive ++ [archiveFileName name iv], rfl, ?_⟩
                simp [executePublish, pubSetup, hmem, hdst, hlen]
          · by_cases hlen : f.zips.length > 1
            · simp [executePublish, pubSetup, hmem, hlen] at h
            · refine ⟨f, f.archive, rfl, ?_⟩
              rw [List.erase_of_not_mem hmem]
              simp [executePublish, pubSetup, hmem, hlen]
      | true =>
          by_cases hmem : Zip.artifact name iv true ∈ f.zips
          · by_cases hpre : iv.isPrerelease = true
            · by_cases hdst : archiveFileName name iv ∈ f.archive
              · simp [executePublish, pubSetup, hmem, hpre, hdst] at h
              · by_cases hlen : 1 < f.zips.length - 1
                · simp [executePublish, pubSetup, hmem, hpre, hdst, hlen] at h
                · refine ⟨f, f.archive ++ [archiveFileName name iv], rfl, ?_⟩
                  simp [executePublish, pubSetup, hmem, hpre, hdst, hlen]
            · by_cases hlen : 1 < f.zips.length - 1
              · simp [executePublish, pubSetup, hmem, hpre, hlen] at h
              · refine ⟨f, f.archive, rfl, ?_⟩
                simp [executePublish, pubSetup, hmem, hpre, hlen]
          · by_cases hlen : f.zips.length > 1
            · simp [executePublish, pubSetup, hmem, hlen] at h
            · refine ⟨f, f.archive, rfl, ?_⟩
              rw [List.erase_of_not_mem hmem]
              simp [executePublish, pubSetup, hmem, hlen]

theorem count_consistent_state (zips : List Zip) (name : String)
    (vrec : Bool → Version) (hnd : zips.Nodup)
    (hall : ∀ z ∈ zips, ∃ d : Bool, z = Zip.artifact name (vrec d) d) :
    ∀ d, (zips.filter (isCurrent name d)).length ≤ 1 := by
  intro d
  apply filter_length_le_one (a := Zip.artifact name (vrec d) d) hnd
  intro z hz hcur
  obtain ⟨v, rfl⟩ := (isCurrent_eq_true_iff name d z).mp hcur
  obtain ⟨d', hd'⟩ := hall _ hz
  simp only [Zip.artifact.injEq, true_and] at hd'
  obtain ⟨hv, hdd⟩ := hd'
  subst hdd
  subst hv
  rfl

theorem count_after_publish (zips : List Zip) (name : String)
    (vrec : Bool → Version) (declared : Version) (b : Bool) (hnd : zips.Nodup)
    (hall : ∀ z ∈ zips, ∃ d : Bool, z = Zip.artifact name (vrec d) d) :
    ∀ d, ((zips.erase (Zip.artifact name (vrec b) b) ++
      [Zip.artifact name declared b]).filter (isCurrent name d)).length ≤ 1 := by
  intro d
  rw [List.filter_append, List.length_append]
  by_cases hdb : d = b
  · subst hdb
    have h0 : (zips.erase (Zip.artifact name (vrec d) d)).filter (isCurrent name d)
        = [] := by
      rw [List.filter_eq_nil_iff]
      intro z hz hcur
      obtain ⟨v, rfl⟩ := (isCurrent_eq_true_iff name d z).mp hcur
      obtain ⟨d', hd'⟩ := hall _ (List.mem_of_mem_erase hz)
      simp only [Zip.artifact.injEq, true_and] at hd'
      obtain ⟨hv, hdd⟩ := hd'
      subst hdd
      subst hv
      exact ((hnd.mem_erase_iff.mp hz).1 rfl).elim
    rw [h0]
    have h1 : isCurrent name d (Zip.artifact name declared d) = true := by
      simp [isCurrent]
    simp [List.filter, h1]
  · have hbd : (b == d) = false := by
      cases b <;> cases d <;> simp_all
    have h1 : ([Zip.artifact name declared b].filter (isCurrent name d)).length = 0 := by
      simp [List.filter, isCurrent, hbd]
    have h2 : ((zips.erase (Zip.artifact name (vrec b) b)).filter
        (isCurrent name d)).length ≤ 1 := by
      apply filter_length_le_one (a := Zip.artifact name (vrec d) d) (hnd.erase _)
      intro z hz hcur
      obtain ⟨v, rfl⟩ := (isCurrent_eq_true_iff name d z).mp hcur
      obtain ⟨d', hd'⟩ := hall _ (List.mem_of_mem_erase hz)
      simp only [Zip.artifact.injEq, true_and] at hd'
      obtain ⟨hv, hdd⟩ := hd'
      subst hdd
      subst hv
      rfl
    omega

theorem consistentFolder_congr {idx1 idx2 : IndexMap} {n : String}
    {fs : Option Folder} (h : lookupEntry idx1 n = lookupEntry idx2 n) :
    consistentFolder idx1 n fs ↔ consistentFolder idx2 n fs := by
  cases fs with
  | none => simp [consistentFolder]
  | some f =>
      unfold consistentFolder
      have hrec : ∀ d, recordedD idx1 n d = recordedD idx2 n d :=
        fun d => recordedD_congr h d
      constructor
      · rintro ⟨hnd, hall⟩
        refine ⟨hnd, fun z hz => ?_⟩
        obtain ⟨d, hd⟩ := hall z hz
        exact ⟨d, by rw [hd, hrec d]⟩
      · rintro ⟨hnd, hall⟩
        refine ⟨hnd, fun z hz => ?_⟩
        obtain ⟨d, hd⟩ := hall z hz
        exact ⟨d, by rw [hd, hrec d]⟩

theorem stepComponent_amoc (dm : Bool) (idx : IndexMap) (c : Component)
    (fs : Option Folder) (hc : consistentFolder idx c.name fs)
    (he : (stepComponent dm idx c fs).error = none) :
    ∀ d, currentCountO (stepComponent dm idx c fs).fs c.name d ≤ 1 := by
  by_cases hm : c.hasManifest = true
  · rcases hr : reconcile dm idx c.name c.version with ⟨idx', iv, plan⟩
    have hiv : iv = recordedD idx c.name dm := by
      have h2 := reconcile_recorded dm idx c.name c.version
      rw [hr] at h2
      exact h2
    cases plan with
    | skip =>
        intro d
        have hfs : (stepComponent dm idx c fs).fs = fs := by
          simp [stepComponent, hm, hr]
        rw [hfs]
        cases fs with
        | none => simp [currentCountO]
        | some f =>
            obtain ⟨hnd, hall⟩ := hc
            exact count_consistent_state f.zips c.name
              (fun d => recordedD idx c.name d) hnd hall d
    | reject e => simp [stepComponent, hm, hr] at he
    | publish =>
        intro d
        have hee : (executePublish dm c.name c.version iv fs).2.2 = none := by
          simpa [stepComponent, hm, hr] using he
        have hfs : (stepComponent dm idx c fs).fs =
            (executePublish dm c.name c.version iv fs).1 := by
          simp [stepComponent, hm, hr]
        rw [hfs]
        rcases executePublish_success_shape dm c.name c.version iv fs hee with
          ⟨_, hres⟩ | ⟨f, ar, hfso, hres⟩
        · rw [hres]
          simpa [currentCountO, currentCount] using
            List.length_filter_le (isCurrent c.name d) [Zip.artifact c.name c.version dm]
        · subst hfso
          obtain ⟨hnd, hall⟩ := hc
          rw [hres]
          have := count_after_publish f.zips c.name
            (fun d => recordedD idx c.name d) c.version dm hnd hall d
          rw [hiv]
          exact this
  · simp [stepComponent, hm] at he

theorem runPass_amoc (dm : Bool) :
    ∀ (comps : List (Component × Option Folder)) (idx : IndexMap),
    (passNames comps).Nodup →
    (∀ p ∈ comps, consistentFolder idx p.1.name p.2) →
    (runPass dm idx comps).errs = [] →
    ∀ s ∈ (runPass dm idx comps).states, ∀ d, currentCountO s.2 s.1 d ≤ 1 := by
  intro comps
  induction comps with
  | nil => intro idx _ _ _ s hs; simp [runPass] at hs
  | cons q rest ih =>
      obtain ⟨c, fs⟩ := q
      intro idx hnd hcons herrs s hs d
      rw [passNames_cons, List.nodup_cons] at hnd
      have herr2 : (match (stepComponent dm idx c fs).error with
          | some e => [(c.name, e)]
          | none => []) ++ (runPass dm (stepComponent dm idx c fs).idx rest).errs
          = [] := herrs
      rcases he : (stepComponent dm idx c fs).error with _ | e
      swap
      · rw [he] at herr2; simp at herr2
      rw [he] at herr2
      simp only [List.nil_append] at herr2
      have hs2 : s = (c.name, (stepComponent dm idx c fs).fs) ∨
          s ∈ (runPass dm (stepComponent dm idx c fs).idx rest).states :=
        List.mem_cons.mp hs
      rcases hs2 with hs2 | hs2
      · subst hs2
        exact stepComponent_amoc dm idx c fs
          (hcons (c, fs) (List.mem_cons_self _ _)) he d
      · refine ih (stepComponent dm idx c fs).idx hnd.2 ?_ herr2 s hs2 d
        intro p hp
        have hpn : p.1.name ∈ passNames rest :=
          List.mem_map_of_mem (fun p => p.1.name) hp
        have hne : p.1.name ≠ c.name := fun hh => hnd.1 (hh ▸ hpn)
        exact (consistentFolder_congr
          (stepComponent_lookup_ne dm idx c fs p.1.name hne)).mpr
          (hcons p (List.mem_cons_of_mem _ hp))

theorem reconcile_plan_eq (dm : Bool) (idx : IndexMap) (n : String)
    (declared : Version) :
    (reconcile dm idx n declared).2.2 =
      (if recordedD idx n dm = declared then Plan.skip
       else if Version.ltb declared (recordedD idx n dm) then
         Plan.reject .versionRegressed
       else if !dm && declared.isPrerelease then Plan.reject .prereleaseOnMain
       else Plan.publish) := by
  simp only [reconcile, recordedD]

theorem Version.ltb_irrefl (a : Version) : Version.ltb a a = false := by
  simp [Version.ltb]

theorem recordedD_of_recordedOpt_none (idx : IndexMap) (n : String) (dm : Bool)
    (h : recordedOpt idx n dm = none) : recordedD idx n dm = v000 := by
  unfold recordedOpt at h
  unfold recordedD
  cases hl : lookupEntry idx n with
  | none => rfl
  | some e =>
      rw [hl] at h
      simp only [Option.some_bind] at h
      simp [h]

theorem runPass_states_names (dm : Bool) :
    ∀ (comps : List (Component × Option Folder)) (idx : IndexMap),
    (runPass dm idx comps).states.map Prod.fst = passNames comps := by
  intro comps
  induction comps with
  | nil => intro idx; rfl
  | cons q rest ih =>
      obtain ⟨c, fs⟩ := q
      intro idx
      show ((c.name, (stepComponent dm idx c fs).fs) ::
        (runPass dm (stepComponent dm idx c fs).idx rest).states).map Prod.fst =
        passNames ((c, fs) :: rest)
      rw [List.map_cons, ih, passNames_cons]

/-! ## The claims -/

/-- C1, counterexample to the claim as stated: with the recorded main
version 1.0.0 for component foo and declared version 0.9.0, the step
yields VersionRegressed, yet the in-memory entry IS mutated: the main
record afterwards holds 0.9.0 rather than the untouched 1.0.0.  This
contradicts the claim that a Reject outcome leaves the entry untouched
and that an attempt to decrease the version causes no mutation. -/
theorem c1_counterexample :
    (stepComponent false [("foo", ⟨some v100, none⟩)]
        ⟨"foo", true, ⟨0, 9, 0, none⟩⟩ (some ⟨[], []⟩)).error =
      some CompError.versionRegressed ∧
    recordedOpt (stepComponent false [("foo", ⟨some v100, none⟩)]
        ⟨"foo", true, ⟨0, 9, 0, none⟩⟩ (some ⟨[], []⟩)).idx "foo" false =
      some ⟨0, 9, 0, none⟩ ∧
    recordedOpt [("foo", ⟨some v100, none⟩)] "foo" false = some v100 := by
  decide

/-- C1 amended: a Skip outcome (an existing branch record equal to the
declared version) leaves the index and filesystem completely untouched;
an attempt to decrease the version yields VersionRegressed with no
filesystem effect and an unchanged folder, but the in-memory entry is
mutated to the declared version before the plan is evaluated (the
mutation is not persisted, because the error makes the pass raise
before main writes the index file). -/
theorem c1_amended (dm : Bool) (idx : IndexMap) (c : Component)
    (fs : Option Folder) (hm : c.hasManifest = true) :
    (∀ e, lookupEntry idx c.name = some e → e.get dm = some c.version →
      stepComponent dm idx c fs = ⟨idx, fs, [], none⟩) ∧
    (Version.ltb c.version (recordedD idx c.name dm) = true →
      (stepComponent dm idx c fs).error = some CompError.versionRegressed ∧
      (stepComponent dm idx c fs).fs = fs ∧
      (stepComponent dm idx c fs).effects = [] ∧
      recordedOpt (stepComponent dm idx c fs).idx c.name dm = some c.version) := by
  constructor
  · intro e hl hg
    simp [stepComponent, hm, reconcile_of_recorded_eq dm idx c.name c.version e hl hg]
  · intro hlt
    have hne : ¬recordedD idx c.name dm = c.version := by
      intro hh
      rw [hh, Version.ltb_irrefl] at hlt
      exact Bool.false_ne_true hlt
    rcases hr : reconcile dm idx c.name c.version with ⟨idx', iv, plan⟩
    have hp : plan = Plan.reject .versionRegressed := by
      have h2 := reconcile_plan_eq dm idx c.name c.version
      rw [hr] at h2
      simp only [hne, if_false, hlt, if_true] at h2
      exact h2
    subst hp
    have hro : recordedOpt idx' c.name dm = some c.version := by
      have h2 := reconcile_recordedOpt_self dm idx c.name c.version
      rw [hr] at h2
      exact h2
    simp [stepComponent, hm, hr, hro]

/-- C1 amended, witness at the counterexample input. -/
theorem c1_amended_witness :
    (stepComponent false [("foo", ⟨some v100, none⟩)]
        ⟨"foo", true, ⟨0, 9, 0, none⟩⟩ (some ⟨[], []⟩)).error =
      some CompError.versionRegressed :=
  ((c1_amended false [("foo", ⟨some v100, none⟩)]
      ⟨"foo", true, ⟨0, 9, 0, none⟩⟩ (some ⟨[], []⟩) (by decide)).2 (by decide)).1

/-- C2, counterexample to the claim as stated: on the main branch with
declared pre-release version 1.2.0a1 and no prior record, the component
is rejected with PrereleaseOnMainBranch, yet the in-memory main record
DOES end up holding the pre-release version, because the entry is
written before the branch-policy check runs. -/
theorem c2_counterexample :
    (stepComponent false [] ⟨"foo", true, ⟨1, 2, 0, some (0, 1)⟩⟩
        (some ⟨[], []⟩)).error = some CompError.prereleaseOnMain ∧
    recordedOpt (stepComponent false [] ⟨"foo", true, ⟨1, 2, 0, some (0, 1)⟩⟩
        (some ⟨[], []⟩)).idx "foo" false = some ⟨1, 2, 0, some (0, 1)⟩ ∧
    Version.isPrerelease ⟨1, 2, 0, some (0, 1)⟩ = true := by
  decide

/-- C2 amended: on the main branch a declared pre-release version (not
equal to and not below the recorded version) is rejected with
PrereleaseOnMainBranch and causes no filesystem effect, but the
in-memory main record is set to the pre-release version before the
check; the mutated index is not persisted because the error makes the
pass raise before main writes the index file. -/
theorem c2_amended (idx : IndexMap) (c : Component) (fs : Option Folder)
    (hm : c.hasManifest = true) (hpre : c.version.isPrerelease = true)
    (hne : recordedD idx c.name false ≠ c.version)
    (hlt : Version.ltb c.version (recordedD idx c.name false) = false) :
    (stepComponent false idx c fs).error = some CompError.prereleaseOnMain ∧
    (stepComponent false idx c fs).fs = fs ∧
    (stepComponent false idx c fs).effects = [] ∧
    recordedOpt (stepComponent false idx c fs).idx c.name false =
      some c.version := by
  rcases hr : reconcile false idx c.name c.version with ⟨idx', iv, plan⟩
  have hp : plan = Plan.reject .prereleaseOnMain := by
    have h2 := reconcile_plan_eq false idx c.name c.version
    rw [hr] at h2
    simp only [hne, if_false, hlt, Bool.false_eq_true, Bool.not_false, hpre,
      Bool.and_true, if_true] at h2
    exact h2
  subst hp
  have hro : recordedOpt idx' c.name false = some c.version := by
    have h2 := reconcile_recordedOpt_self false idx c.name c.version
    rw [hr] at h2
    exact h2
  simp [stepComponent, hm, hr, hro]

/-- C2 amended, witness at the counterexample input. -/
theorem c2_amended_witness :
    (stepComponent false [] ⟨"foo", true, ⟨1, 2, 0, some (0, 1)⟩⟩
        (some ⟨[], []⟩)).error = some CompError.prereleaseOnMain :=
  (c2_amended [] ⟨"foo", true, ⟨1, 2, 0, some (0, 1)⟩⟩ (some ⟨[], []⟩)
    (by decide) (by decide) (by decide) (by decide)).1

/-- C3: the reconciliation conditions are evaluated in order with the
first match winning: an absent branch record makes the recorded version
0.0.0; an equal recorded version yields Skip; a recorded version above
the declared one yields Reject(VersionRegressed); the main branch with
a declared pre-release yields Reject(PrereleaseOnMainBranch); otherwise
the plan is Publish. -/
theorem c3_plan_first_match (dm : Bool) (idx : IndexMap) (n : String)
    (declared : Version) :
    (recordedOpt idx n dm = none → (reconcile dm idx n declared).2.1 = v000) ∧
    (recordedD idx n dm = declared →
      (reconcile dm idx n declared).2.2 = Plan.skip) ∧
    (recordedD idx n dm ≠ declared →
      Version.ltb declared (recordedD idx n dm) = true →
      (reconcile dm idx n declared).2.2 = Plan.reject CompError.versionRegressed) ∧
    (recordedD idx n dm ≠ declared →
      Version.ltb declared (recordedD idx n dm) = false →
      dm = false → declared.isPrerelease = true →
      (reconcile dm idx n declared).2.2 = Plan.reject CompError.prereleaseOnMain) ∧
    (recordedD idx n dm ≠ declared →
      Version.ltb declared (recordedD idx n dm) = false →
      (dm = false → declared.isPrerelease = false) →
      (reconcile dm idx n declared).2.2 = Plan.publish) := by
  refine ⟨?_, ?_, ?_, ?_, ?_⟩
  · intro h
    rw [reconcile_recorded]
    exact recordedD_of_recordedOpt_none idx n dm h
  · intro h
    rw [reconcile_plan_eq, if_pos h]
  · intro hne hlt
    rw [reconcile_plan_eq, if_neg hne, if_pos hlt]
  · intro hne hlt hdm hpre
    subst hdm
    rw [reconcile_plan_eq, if_neg hne, hlt]
    simp [hpre]
  · intro hne hlt hpre
    rw [reconcile_plan_eq, if_neg hne, hlt]
    cases dm with
    | false => simp [hpre rfl]
    | true => simp

/-- C3, witness: with an empty index (recorded version 0.0.0) and
declared version 1.0.0 on main, the plan is Publish. -/
theorem c3_plan_first_match_witness :
    (reconcile false [] "foo" v100).2.2 = Plan.publish :=
  (c3_plan_first_match false [] "foo" v100).2.2.2.2 (by decide) (by decide)
    (fun _ => by decide)

/-- C4: disposal of an existing old artifact under a Publish plan.  On
the dev branch a pre-release old artifact is archived (when its archive
destination is free) into the versions/ sub-store under the suffix-free
name name-version.zip, and never deleted; a non-pre-release old dev
artifact is deleted and the archive sub-store is left unchanged; on the
main branch the old artifact is never deleted, and is archived whenever
its archive destination is free. -/
theorem c4_disposal (name : String) (declared iv : Version) (f : Folder) :
    (Zip.artifact name iv true ∈ f.zips → iv.isPrerelease = true →
      archiveFileName name iv ∉ f.archive →
      Effect.archiveMove name iv ∈ (executePublish true name declared iv (some f)).2.1 ∧
      (∀ d, Effect.removeOld name iv d ∉
        (executePublish true name declared iv (some f)).2.1) ∧
      ∃ f2, (executePublish true name declared iv (some f)).1 = some f2 ∧
        archiveFileName name iv ∈ f2.archive) ∧
    (Zip.artifact name iv true ∈ f.zips → iv.isPrerelease = false →
      Effect.removeOld name iv true ∈
        (executePublish true name declared iv (some f)).2.1 ∧
      Effect.archiveMove name iv ∉
        (executePublish true name declared iv (some f)).2.1 ∧
      ∃ f2, (executePublish true name declared iv (some f)).1 = some f2 ∧
        f2.archive = f.archive) ∧
    (Zip.artifact name iv false ∈ f.zips →
      (∀ d, Effect.removeOld name iv d ∉
        (executePublish false name declared iv (some f)).2.1) ∧
      (archiveFileName name iv ∉ f.archive →
        Effect.archiveMove name iv ∈
          (executePublish false name declared iv (some f)).2.1 ∧
        ∃ f2, (executePublish false name declared iv (some f)).1 = some f2 ∧
          archiveFileName name iv ∈ f2.archive)) ∧
    archiveFileName name iv = name ++ "-" ++ Version.render iv ++ ".zip" := by
  refine ⟨?_, ?_, ?_, rfl⟩
  · intro hmem hpre hdst
    by_cases hlen : 1 < f.zips.length - 1
    · simp [executePublish, pubSetup, hmem, hpre, hdst, hlen]
    · simp [executePublish, pubSetup, hmem, hpre, hdst, hlen]
  · intro hmem hpre
    by_cases hlen : 1 < f.zips.length - 1
    · simp [executePublish, pubSetup, hmem, hpre, hlen]
    · simp [executePublish, pubSetup, hmem, hpre, hlen]
  · intro hmem
    constructor
    · intro d
      by_cases hdst : archiveFileName name iv ∈ f.archive
      · simp [executePublish, pubSetup, hmem, hdst]
      · by_cases hlen : 1 < f.zips.length - 1
        · simp [executePublish, pubSetup, hmem, hdst, hlen]
        · simp [executePublish, pubSetup, hmem, hdst, hlen]
    · intro hdst
      by_cases hlen : 1 < f.zips.length - 1
      · simp [executePublish, pubSetup, hmem, hdst, hlen]
      · simp [executePublish, pubSetup, hmem, hdst, hlen]

/-- C4, witness: Scenario C of the spec, a superseded dev pre-release
2.0.0a1 is archived under the suffix-free name. -/
theorem c4_disposal_witness :
    Effect.archiveMove "bar" ⟨2, 0, 0, some (0, 1)⟩ ∈
      (executePublish true "bar" ⟨2, 0, 0, some (0, 2)⟩ ⟨2, 0, 0, some (0, 1)⟩
        (some ⟨[Zip.artifact "bar" ⟨2, 0, 0, some (0, 1)⟩ true], []⟩)).2.1 :=
  ((c4_disposal "bar" ⟨2, 0, 0, some (0, 2)⟩ ⟨2, 0, 0, some (0, 1)⟩
    ⟨[Zip.artifact "bar" ⟨2, 0, 0, some (0, 1)⟩ true], []⟩).1
    (by decide) (by decide) (by decide)).1

/-- C5: a second pass over the same components, run from the index the
first pass produced and against the folder states the first pass left
behind, leaves the index store identical and performs zero filesystem
writes (every component whose recorded version equals its declared
version is skipped). -/
theorem c5_idempotent (dm : Bool) (idx : IndexMap)
    (comps : List (Component × Option Folder))
    (hnd : (passNames comps).Nodup)
    (_hok : (runPass dm idx comps).errs = []) :
    (runPass dm (runPass dm idx comps).idx
      (rerunPairs comps (runPass dm idx comps))).idx = (runPass dm idx comps).idx ∧
    (runPass dm (runPass dm idx comps).idx
      (rerunPairs comps (runPass dm idx comps))).effects = [] := by
  apply runPass_of_recorded
  rintro ⟨c, fs2⟩ hp hm
  have hc : c ∈ comps.map Prod.fst := (List.of_mem_zip hp).1
  obtain ⟨q, hq, hq2⟩ := List.mem_map.mp hc
  subst hq2
  exact runPass_recordedOpt dm comps idx hnd q hq hm

/-- C5, witness: two fresh components published on main; the rerun
leaves the index identical and writes nothing. -/
theorem c5_idempotent_witness :
    (runPass false
      (runPass false [] [(⟨"a", true, v100⟩, none), (⟨"b", true, ⟨2, 0, 0, none⟩⟩, none)]).idx
      (rerunPairs [(⟨"a", true, v100⟩, none), (⟨"b", true, ⟨2, 0, 0, none⟩⟩, none)]
        (runPass false [] [(⟨"a", true, v100⟩, none), (⟨"b", true, ⟨2, 0, 0, none⟩⟩, none)]))).effects
      = [] :=
  (c5_idempotent false [] [(⟨"a", true, v100⟩, none), (⟨"b", true, ⟨2, 0, 0, none⟩⟩, none)]
    (by decide) (by decide)).2

/-- C6: archiving is write-once.  When the archive decision holds (on
main an existing old artifact, on dev an existing pre-release old
artifact) and the computed archive destination already exists, the
publish execution stops with ArchiveCollision, the folder is entirely
unchanged (the old artifact is not deleted and the archived file is not
overwritten), and no filesystem effect — in particular no build of the
new package — is performed. -/
theorem c6_archive_write_once (dm : Bool) (name : String) (declared iv : Version)
    (f : Folder) (hold : Zip.artifact name iv dm ∈ f.zips)
    (hpre : dm = true → iv.isPrerelease = true)
    (hdst : archiveFileName name iv ∈ f.archive) :
    executePublish dm name declared iv (some f) =
      (some f, [], some CompError.archiveCollision) := by
  cases dm with
  | false => simp [executePublish, pubSetup, hold, hdst]
  | true => simp [executePublish, pubSetup, hold, hdst, hpre rfl]

/-- C6, witness: a main-branch collision on foo-1.0.0.zip. -/
theorem c6_archive_write_once_witness :
    executePublish false "foo" ⟨1, 1, 0, none⟩ v100
        (some ⟨[Zip.artifact "foo" v100 false], [archiveFileName "foo" v100]⟩) =
      (some ⟨[Zip.artifact "foo" v100 false], [archiveFileName "foo" v100]⟩,
        [], some CompError.archiveCollision) :=
  c6_archive_write_once false "foo" ⟨1, 1, 0, none⟩ v100
    ⟨[Zip.artifact "foo" v100 false], [archiveFileName "foo" v100]⟩
    (by decide) (fun h => by cases h) (by decide)

/-- C7, counterexample to the claim as stated: a run over a component
whose folder holds two files matching the main current-artifact pattern
finishes with no errors (the component is skipped since the recorded
version equals the declared one), yet the folder still holds two
matching files after this successful run. -/
theorem c7_counterexample :
    (runPass false [("foo", ⟨some v100, none⟩)]
      [(⟨"foo", true, v100⟩, some ⟨[Zip.artifact "foo" v100 false,
        Zip.artifact "foo" ⟨0, 9, 0, none⟩ false], []⟩)]).errs = [] ∧
    (runPass false [("foo", ⟨some v100, none⟩)]
      [(⟨"foo", true, v100⟩, some ⟨[Zip.artifact "foo" v100 false,
        Zip.artifact "foo" ⟨0, 9, 0, none⟩ false], []⟩)]).states =
      [("foo", some ⟨[Zip.artifact "foo" v100 false,
        Zip.artifact "foo" ⟨0, 9, 0, none⟩ false], []⟩)] ∧
    currentCountO (some ⟨[Zip.artifact "foo" v100 false,
      Zip.artifact "foo" ⟨0, 9, 0, none⟩ false], []⟩) "foo" false = 2 := by
  decide

/-- C7 amended: starting from a consistent state (every zip file in a
component's folder is the artifact named by that component and the
recorded version of one of its branches, with no duplicates), a run
that finishes without per-component errors leaves every component's
primary folder with at most one file matching the current-artifact
naming pattern per branch. -/
theorem c7_amended (dm : Bool) (idx : IndexMap)
    (comps : List (Component × Option Folder))
    (hnd : (passNames comps).Nodup)
    (hcons : ∀ p ∈ comps, consistentFolder idx p.1.name p.2)
    (hok : (runPass dm idx comps).errs = []) :
    ∀ s ∈ (runPass dm idx comps).states, ∀ d, currentCountO s.2 s.1 d ≤ 1 :=
  runPass_amoc dm comps idx hnd hcons hok

/-- C7 amended, witness: a fresh component published on main ends with
exactly one current artifact. -/
theorem c7_amended_witness :
    currentCountO (some ⟨[Zip.artifact "a" v100 false], []⟩) "a" false ≤ 1 :=
  c7_amended false [] [(⟨"a", true, v100⟩, some ⟨[], []⟩)] (by decide)
    (by
      rintro p hp
      simp only [List.mem_singleton] at hp
      subst hp
      exact ⟨List.nodup_nil, by simp⟩)
    (by decide)
    ("a", some ⟨[Zip.artifact "a" v100 false], []⟩) (by decide) false

/-- C8, counterexample to the claim as stated: with one broken
component (missing manifest) and one good component, the pass processes
and publishes the good component and collects the single error, but the
aggregate raise then aborts main before the index file is written, so
the partial progress of the run is not persisted. -/
theorem c8_counterexample :
    runMain false [] [] [(⟨"bad", false, v100⟩, none), (⟨"good", true, v100⟩, none)] []
      = MainOutcome.raisedIntegrations ∧
    Effect.buildZip "good" v100 false ∈
      (runPass false [] [(⟨"bad", false, v100⟩, none),
        (⟨"good", true, v100⟩, none)]).effects ∧
    (runPass false [] [(⟨"bad", false, v100⟩, none),
      (⟨"good", true, v100⟩, none)]).errs =
      [("bad", CompError.missingManifest)] := by
  decide

/-- C8 amended: every component of a pass is attempted in order and a
broken component never changes the outcomes of the other components of
the same pass; all errors are collected and surfaced as one aggregate
raise after the full pass; but that raise aborts main before the index
file is written, so the in-memory partial progress of the index is not
persisted (only the filesystem effects already performed remain). -/
theorem c8_amended :
    (∀ (dm : Bool) (idx : IndexMap) (comps : List (Component × Option Folder)),
      (runPass dm idx comps).states.map Prod.fst = passNames comps) ∧
    (∀ (dm : Bool) (idx : IndexMap) (c : Component) (fs : Option Folder)
      (rest : List (Component × Option Folder)), c.name ∉ passNames rest →
      (runPass dm idx ((c, fs) :: rest)).states =
        (c.name, (stepComponent dm idx c fs).fs) :: (runPass dm idx rest).states ∧
      (runPass dm idx ((c, fs) :: rest)).errs =
        (match (stepComponent dm idx c fs).error with
         | some e => [(c.name, e)]
         | none => []) ++ (runPass dm idx rest).errs) ∧
    (∀ (dm : Bool) (idxInt idxPlat : IndexMap)
      (ints plats : List (Component × Option Folder)),
      (runPass dm idxInt ints).errs ≠ [] →
      runMain dm idxInt idxPlat ints plats = MainOutcome.raisedIntegrations) := by
  refine ⟨?_, ?_, ?_⟩
  · intro dm idx comps
    exact runPass_states_names dm comps idx
  · intro dm idx c fs rest hc
    have hagree : ∀ m ∈ passNames rest,
        lookupEntry (stepComponent dm idx c fs).idx m = lookupEntry idx m := by
      intro m hm
      exact stepComponent_lookup_ne dm idx c fs m (fun hh => hc (hh ▸ hm))
    obtain ⟨ts, _, tr, _⟩ := runPass_congr dm rest (stepComponent dm idx c fs).idx idx hagree
    constructor
    · show (c.name, (stepComponent dm idx c fs).fs) ::
        (runPass dm (stepComponent dm idx c fs).idx rest).states = _
      rw [ts]
    · show (match (stepComponent dm idx c fs).error with
        | some e => [(c.name, e)]
        | none => []) ++ (runPass dm (stepComponent dm idx c fs).idx rest).errs = _
      rw [tr]
  · intro dm idxInt idxPlat ints plats h
    simp [runMain, h]

/-- C8 amended, witness: a broken head component does not change the
outcome of the remaining component, and a non-empty error list makes
main raise. -/
theorem c8_amended_witness :
    runMain false [] [] [(⟨"bad", false, v100⟩, none)] [] =
      MainOutcome.raisedIntegrations :=
  c8_amended.2.2 false [] [] [(⟨"bad", false, v100⟩, none)] [] (by decide)

/-- C9, counterexample to the claim as stated: the default structure
returned when the index file is absent does not have empty component
mappings — its integrations mapping is seeded with the entry
api -> {main: "1.0.0"}. -/
theorem c9_counterexample :
    (loadIndex ⟨"ib", "pssm", "ibd"⟩ none).integrations ≠ [] ∧
    lookupEntry (loadIndex ⟨"ib", "pssm", "ibd"⟩ none).integrations "api" =
      some (Entry.single false v100) := by
  refine ⟨?_, by decide⟩
  intro h
  simp [loadIndex] at h

/-- C9 amended: when the index file is absent, load returns a default
structure rather than an error: the three tool-version stamps, the
epoch timestamp, an empty platforms mapping, and an integrations
mapping seeded with the single entry api -> {main: "1.0.0"}. -/
theorem c9_amended (tools : ToolVersions) :
    loadIndex tools none =
      ⟨tools, epochTimestamp, [], [("api", Entry.single false v100)]⟩ ∧
    (loadIndex tools none).platforms = [] ∧
    (loadIndex tools none).integrations = [("api", Entry.single false v100)] ∧
    (loadIndex tools none).stamps = tools ∧
    (loadIndex tools none).timestamp = epochTimestamp :=
  ⟨rfl, rfl, rfl, rfl, rfl⟩

/-- C10: platform reconciliation resolves the primary folder, the new
and old package paths and the archive path of every component under the
integrations index folder (not under the platforms folder), so a
platform and an integration sharing a name operate on the same primary
folder and the same artifact files. -/
theorem c10_platform_paths (name : String) (v iv : Version) (dev : Bool) :
    platformIndexFolder name = integrationIndexFolder name ∧
    platformIndexFolder name = INTEGRATION_INDEX_FOLDER ++ [name] ∧
    platformIndexFolder name ≠ PLATFORM_INDEX_FOLDER ++ [name] ∧
    platformPackagePath name v dev = integrationPackagePath name v dev ∧
    platformOldPackagePath name iv dev = integrationOldPackagePath name iv dev ∧
    platformArchivePath name iv = integrationArchivePath name iv := by
  refine ⟨rfl, rfl, ?_, rfl, rfl, rfl⟩
  intro h
  simp [platformIndexFolder, INTEGRATION_INDEX_FOLDER, PLATFORM_INDEX_FOLDER,
    INDEX_FOLDER] at h

end Indexer
